import Mathlib

/-!
Shallow embedding of the `borderrs` crate (src/lib.rs, src/styles.rs).

Strings are modelled as lists of Unicode scalar values (`List Char`), so the
character count of a string is `List.length` and its UTF-8 byte length is the
sum of `Char.utf8Size` over its characters.  Rust's `str::lines` (split on
line feeds, no line produced for a final trailing line feed, a carriage
return directly before a line feed is stripped) is modelled by `rustLines`.
The two renderers `format_slice` and `format_hash_map_headers` of
`SimpleBorderStyle` are translated line-computation by line-computation.
-/

/-- A string, as the list of its Unicode scalar values. -/
abbrev Str : Type := List Char

/-- UTF-8 byte length of a string: Rust's `str::len`. -/
def byteLen (s : Str) : Nat := (s.map Char.utf8Size).sum

/-- `iterator.max().unwrap_or(d)` over naturals: the maximum of a non-empty
list, and the default `d` for the empty list. -/
def maxD (d : Nat) : List Nat → Nat
  | [] => d
  | [x] => x
  | x :: y :: ys => Nat.max x (maxD d (y :: ys))

/-- Remove one carriage return at the end of a line, as Rust's `str::lines`
does for a `\r\n` line terminator. -/
def stripCR (s : Str) : Str := if s.getLast? = some '\r' then s.dropLast else s

/-- Split a string at every line feed; a string with `n` line feeds yields
`n + 1` segments (possibly empty). -/
def splitOnNl : Str → List Str
  | [] => [[]]
  | c :: cs =>
    match splitOnNl cs with
    | [] => [[c]]
    | r :: rs => if c = '\n' then [] :: r :: rs else (c :: r) :: rs

/-- Rust's `str::lines`: every segment before a line feed (with a trailing
carriage return stripped), plus the final segment when it is non-empty. -/
def rustLines (s : Str) : List Str :=
  let parts := splitOnNl s
  parts.dropLast.map stripCR ++
    (match parts.getLast? with
     | some [] => []
     | some p => [p]
     | none => [])

/-- Rust's `format!("{:>w$}", s)`: right-align by padding with spaces on the
left up to `w` characters (no truncation). -/
def padLeft (w : Nat) (s : Str) : Str := List.replicate (w - s.length) ' ' ++ s

/-- Rust's `char.to_string().repeat(n)`. -/
def repChar (c : Char) (n : Nat) : Str := List.replicate n c

/-- Rust's `slice.join(sep)` on a list of strings. -/
def joinSep (sep : Str) : List Str → Str
  | [] => []
  | [x] => x
  | x :: y :: ys => x ++ sep ++ joinSep sep (y :: ys)

/-- The eleven glyphs of `SimpleBorderStyle` (src/lib.rs lines 38-66). -/
structure SimpleBorderStyle where
  vertical : Char
  horizontal : Char
  horizontal_up : Char
  horizontal_down : Char
  vertical_right : Char
  vertical_left : Char
  top_left : Char
  top_right : Char
  bottom_left : Char
  bottom_right : Char
  cross : Char

/-- The built-in thin box-drawing style (src/styles.rs). -/
def THIN : SimpleBorderStyle where
  vertical := '│'
  horizontal := '─'
  horizontal_up := '┴'
  horizontal_down := '┬'
  vertical_right := '├'
  vertical_left := '┤'
  top_left := '┌'
  top_right := '┐'
  bottom_left := '└'
  bottom_right := '┘'
  cross := '┼'

/-- The built-in double box-drawing style (src/styles.rs). -/
def DOUBLE : SimpleBorderStyle where
  vertical := '║'
  horizontal := '═'
  horizontal_up := '╩'
  horizontal_down := '╦'
  vertical_right := '╠'
  vertical_left := '╣'
  top_left := '╔'
  top_right := '╗'
  bottom_left := '╚'
  bottom_right := '╝'
  cross := '╬'

/-- The built-in ASCII style (src/styles.rs). -/
def ASCII : SimpleBorderStyle where
  vertical := '|'
  horizontal := '-'
  horizontal_up := '+'
  horizontal_down := '+'
  vertical_right := '+'
  vertical_left := '+'
  top_left := '+'
  top_right := '+'
  bottom_left := '+'
  bottom_right := '+'
  cross := '+'

/-- `SimpleBorderStyle::get_top_line` (src/lib.rs lines 206-216). -/
def getTopLine (st : SimpleBorderStyle) (len width : Nat) : Str :=
  st.top_left ::
    (joinSep [st.horizontal_down] (List.replicate len (repChar st.horizontal width)) ++
      [st.top_right])

/-- `SimpleBorderStyle::get_bottom_line` (src/lib.rs lines 219-229). -/
def getBottomLine (st : SimpleBorderStyle) (len width : Nat) : Str :=
  st.bottom_left ::
    (joinSep [st.horizontal_up] (List.replicate len (repChar st.horizontal width)) ++
      [st.bottom_right])

/-- Row height of `format_slice` (src/lib.rs lines 240-244): the maximum
line count over the entries, `1` for an empty slice. -/
def sliceHeight (entryLines : List (List Str)) : Nat :=
  maxD 1 (entryLines.map List.length)

/-- Shared column width of `format_slice` (src/lib.rs lines 247-251): the
maximum character count of any line of any entry (an entry without lines
contributes `0`), `1` for an empty slice. -/
def sliceWidth (entryLines : List (List Str)) : Nat :=
  maxD 1 (entryLines.map (fun ls => maxD 0 (ls.map List.length)))

/-- One content row of `format_slice` (src/lib.rs lines 260-269), without
its terminating line feed: every entry's `i`-th line (or the empty string)
right-aligned to the column width, joined and bounded by `vertical`. -/
def sliceRow (st : SimpleBorderStyle) (entryLines : List (List Str)) (w i : Nat) : Str :=
  st.vertical ::
    (joinSep [st.vertical] (entryLines.map (fun ls => padLeft w (ls.getD i []))) ++
      [st.vertical])

/-- The `middle` string of `format_slice` (src/lib.rs lines 257-270): the
content rows, each terminated by a line feed. -/
def sliceMiddle (st : SimpleBorderStyle) (entryLines : List (List Str)) (w h : Nat) : Str :=
  List.flatten ((List.range h).map (fun i => sliceRow st entryLines w i ++ ['\n']))

/-- `format_slice` for `SimpleBorderStyle` (src/lib.rs lines 233-273); the
input is the list of the elements' display texts. -/
def formatSlice (st : SimpleBorderStyle) (entries : List Str) : Str :=
  let entryLines := entries.map rustLines
  let h := sliceHeight entryLines
  let w := sliceWidth entryLines
  (getTopLine st entries.length w ++ ['\n']) ++ sliceMiddle st entryLines w h ++
    getBottomLine st entries.length w

/-- `format_iter` (src/lib.rs lines 94-96): materialize the iterator, in
iteration order, and render it with `format_slice`. -/
def formatIter (st : SimpleBorderStyle) (it : List Str) : Str := formatSlice st it

/-- `format_display` (src/lib.rs lines 182-184): render the single value's
display text as a one-element slice. -/
def formatDisplay (st : SimpleBorderStyle) (v : Str) : Str := formatSlice st [v]

/-- `format_debug` (src/lib.rs lines 199-201): render the single value's
debug text (produced by the caller-side `Debug` conversion) as a
one-element slice. -/
def formatDebug (st : SimpleBorderStyle) (v : Str) : Str := formatSlice st [v]

/-- The rendered lines of `format_slice`, in order: top border, the content
rows, bottom border. -/
def sliceLines (st : SimpleBorderStyle) (entries : List Str) : List Str :=
  let entryLines := entries.map rustLines
  let h := sliceHeight entryLines
  let w := sliceWidth entryLines
  getTopLine st entries.length w ::
    ((List.range h).map (sliceRow st entryLines w) ++ [getBottomLine st entries.length w])

/-- Width contribution of one cell in the key/value path (src/lib.rs lines
291-296 and 304-309, inner closure): the maximum UTF-8 byte length of its
lines, `1` when its text yields no lines. -/
def cellW (s : Str) : Nat := maxD 1 ((rustLines s).map byteLen)

/-- Key-column width of `format_hash_map_headers` (src/lib.rs lines
304-309): maximum of the keys' contributions (default `1`) and the key
header's byte length. -/
def hmKeyWidth (m : List (Str × Str)) (key_header : Str) : Nat :=
  Nat.max (maxD 1 (m.map (fun p => cellW p.1))) (byteLen key_header)

/-- Value-column width of `format_hash_map_headers` (src/lib.rs lines
291-296): maximum of the values' contributions (default `1`) and the value
header's byte length. -/
def hmValWidth (m : List (Str × Str)) (value_header : Str) : Nat :=
  Nat.max (maxD 1 (m.map (fun p => cellW p.2))) (byteLen value_header)

/-- Top border of the key/value table (src/lib.rs lines 312-319). -/
def hmTopLine (st : SimpleBorderStyle) (kw vw : Nat) : Str :=
  st.top_left ::
    (repChar st.horizontal kw ++ st.horizontal_down ::
      (repChar st.horizontal vw ++ [st.top_right]))

/-- Bottom border of the key/value table (src/lib.rs lines 322-329). -/
def hmBottomLine (st : SimpleBorderStyle) (kw vw : Nat) : Str :=
  st.bottom_left ::
    (repChar st.horizontal kw ++ st.horizontal_up ::
      (repChar st.horizontal vw ++ [st.bottom_right]))

/-- A divider line of the key/value table (src/lib.rs lines 363-370),
without its terminating line feed. -/
def hmDividerRow (st : SimpleBorderStyle) (kw vw : Nat) : Str :=
  st.vertical_right ::
    (repChar st.horizontal kw ++ st.cross ::
      (repChar st.horizontal vw ++ [st.vertical_left]))

/-- One content row of the key/value table (src/lib.rs lines 350-357),
without its terminating line feed: the entry's `j`-th key line and `j`-th
value line (or the empty string), each right-aligned to its column. -/
def hmRow (st : SimpleBorderStyle) (kw vw : Nat) (key val : List Str) (j : Nat) : Str :=
  st.vertical ::
    (padLeft kw (key.getD j []) ++ st.vertical ::
      (padLeft vw (val.getD j []) ++ [st.vertical]))

/-- The content rows of one entry, in order (src/lib.rs lines 347-358): one
row per line index below the entry's height `max(key lines, value lines)`. -/
def hmBlockLines (st : SimpleBorderStyle) (kw vw : Nat) (e : List Str × List Str) :
    List Str :=
  (List.range (Nat.max e.1.length e.2.length)).map (hmRow st kw vw e.1 e.2)

/-- The `middle` text contributed by one entry: its rows, each terminated
by a line feed. -/
def hmEntryBlock (st : SimpleBorderStyle) (kw vw : Nat) (e : List Str × List Str) : Str :=
  List.flatten ((hmBlockLines st kw vw e).map (fun l => l ++ ['\n']))

/-- The `middle` string of `format_hash_map_headers` (src/lib.rs lines
344-372): each entry's rows, with a divider line after every entry except
the last. -/
def hmMiddle (st : SimpleBorderStyle) (kw vw : Nat) :
    List (List Str × List Str) → Str
  | [] => []
  | [e] => hmEntryBlock st kw vw e
  | e :: e₂ :: es =>
    hmEntryBlock st kw vw e ++ (hmDividerRow st kw vw ++ ['\n']) ++
      hmMiddle st kw vw (e₂ :: es)

/-- The middle of the key/value table as a list of rendered lines (content
rows and divider lines, in order). -/
def hmMiddleLines (st : SimpleBorderStyle) (kw vw : Nat) :
    List (List Str × List Str) → List Str
  | [] => []
  | [e] => hmBlockLines st kw vw e
  | e :: e₂ :: es =>
    hmBlockLines st kw vw e ++ hmDividerRow st kw vw ::
      hmMiddleLines st kw vw (e₂ :: es)

/-- The entries rendered by `format_hash_map_headers` (src/lib.rs lines
331-342): the mapping's (key, value) pairs split into lines, with a
synthetic header entry prepended when at least one header is non-empty. -/
def hmEntries (m : List (Str × Str)) (key_header value_header : Str) :
    List (List Str × List Str) :=
  let base := m.map (fun p => (rustLines p.1, rustLines p.2))
  if key_header ≠ [] ∨ value_header ≠ [] then
    (rustLines key_header, rustLines value_header) :: base
  else base

/-- `format_hash_map_headers` for `SimpleBorderStyle` (src/lib.rs lines
275-375); the mapping is given as its iteration sequence of display-text
(key, value) pairs, and the first string parameter is the key header (the
implementation's binding order). -/
def formatHashMapHeaders (st : SimpleBorderStyle) (m : List (Str × Str))
    (key_header value_header : Str) : Str :=
  let kw := hmKeyWidth m key_header
  let vw := hmValWidth m value_header
  (hmTopLine st kw vw ++ ['\n']) ++ hmMiddle st kw vw (hmEntries m key_header value_header) ++
    hmBottomLine st kw vw

/-- `format_hash_map` (src/lib.rs lines 127-129): the default headers
`"Key"` and `"Value"`. -/
def formatHashMap (st : SimpleBorderStyle) (m : List (Str × Str)) : Str :=
  formatHashMapHeaders st m ("Key".toList) ("Value".toList)

/-- The rendered lines of `format_hash_map_headers`, in order: top border,
content and divider lines, bottom border. -/
def hmLines (st : SimpleBorderStyle) (m : List (Str × Str)) (kh vh : Str) : List Str :=
  hmTopLine st (hmKeyWidth m kh) (hmValWidth m vh) ::
    (hmMiddleLines st (hmKeyWidth m kh) (hmValWidth m vh) (hmEntries m kh vh) ++
      [hmBottomLine st (hmKeyWidth m kh) (hmValWidth m vh)])

/-- Two characters are related when they are equal or when they are the same
glyph slot of the two styles: the relation under which two renderings of the
same input differ only by substituting one style's glyphs for the other's. -/
def glyphRel (st st' : SimpleBorderStyle) (a b : Char) : Prop :=
  a = b ∨
    (a = st.vertical ∧ b = st'.vertical) ∨
    (a = st.horizontal ∧ b = st'.horizontal) ∨
    (a = st.horizontal_up ∧ b = st'.horizontal_up) ∨
    (a = st.horizontal_down ∧ b = st'.horizontal_down) ∨
    (a = st.vertical_right ∧ b = st'.vertical_right) ∨
    (a = st.vertical_left ∧ b = st'.vertical_left) ∨
    (a = st.top_left ∧ b = st'.top_left) ∨
    (a = st.top_right ∧ b = st'.top_right) ∨
    (a = st.bottom_left ∧ b = st'.bottom_left) ∨
    (a = st.bottom_right ∧ b = st'.bottom_right) ∨
    (a = st.cross ∧ b = st'.cross)

/-- Recognize a divider line of the key/value table by its first character:
content rows start with `vertical`, divider lines with `vertical_right`. -/
def headVR (st : SimpleBorderStyle) (l : Str) : Bool := l.head? == some st.vertical_right

/-! ## Helper lemmas -/

theorem maxD_nil (d : Nat) : maxD d [] = d := rfl

theorem le_maxD_of_mem (d : Nat) : ∀ (l : List Nat), ∀ x ∈ l, x ≤ maxD d l := by
  intro l
  induction l with
  | nil => intro x h; cases h
  | cons y ys ih =>
    intro x h
    cases ys with
    | nil =>
      rcases List.mem_cons.mp h with h | h
      · simp [maxD, h]
      · cases h
    | cons z zs =>
      rcases List.mem_cons.mp h with h | h
      · subst h; simp only [maxD]; exact Nat.le_max_left _ _
      · exact Nat.le_trans (ih x h) (by simp only [maxD]; exact Nat.le_max_right _ _)

theorem maxD_attain (d : Nat) : ∀ (l : List Nat), l ≠ [] → ∃ x ∈ l, maxD d l = x := by
  intro l
  induction l with
  | nil => intro h; exact absurd rfl h
  | cons y ys ih =>
    intro _
    cases ys with
    | nil => exact ⟨y, List.mem_singleton.mpr rfl, rfl⟩
    | cons z zs =>
      obtain ⟨x, hx, hm⟩ := ih (by simp)
      rcases Nat.le_total y (maxD d (z :: zs)) with hle | hle
      · refine ⟨x, List.mem_cons_of_mem _ hx, ?_⟩
        simp only [maxD]
        unfold Nat.max
        rw [sup_eq_right.mpr hle, hm]
      · refine ⟨y, List.mem_cons_self _ _, ?_⟩
        simp only [maxD]
        unfold Nat.max
        rw [sup_eq_left.mpr hle]

theorem one_le_utf8Size (c : Char) : 1 ≤ c.utf8Size := by
  show 1 ≤ (if c.val ≤ 0x7F then 1 else if c.val ≤ 0x7FF then 2 else if c.val ≤ 0xFFFF then 3 else 4)
  split
  · exact Nat.le_refl 1
  · split
    · omega
    · split <;> omega

theorem length_le_byteLen (s : Str) : s.length ≤ byteLen s := by
  induction s with
  | nil => simp [byteLen]
  | cons c cs ih =>
    simp only [byteLen, List.map_cons, List.sum_cons, List.length_cons]
    have := one_le_utf8Size c
    calc cs.length + 1 ≤ byteLen cs + 1 := Nat.add_le_add_right ih 1
    _ ≤ byteLen cs + c.utf8Size := Nat.add_le_add_left (one_le_utf8Size c) _
    _ = c.utf8Size + byteLen cs := Nat.add_comm _ _

theorem byteLen_append (a b : Str) : byteLen (a ++ b) = byteLen a + byteLen b := by
  simp [byteLen]

theorem padLeft_length {s : Str} {w : Nat} (h : s.length ≤ w) :
    (padLeft w s).length = w := by
  simp only [padLeft, List.length_append, List.length_replicate]
  omega

theorem stripCR_byteLen_le (s : Str) : byteLen (stripCR s) ≤ byteLen s := by
  by_cases h : s.getLast? = some '\r'
  · have hne : s ≠ [] := by intro e; subst e; simp at h
    conv_rhs => rw [← List.dropLast_append_getLast hne]
    rw [byteLen_append]
    simp [stripCR, h]
  · simp [stripCR, h]

theorem splitOnNl_ne_nil : ∀ (s : Str), splitOnNl s ≠ [] := by
  intro s
  induction s with
  | nil => simp [splitOnNl]
  | cons c cs ih =>
    simp only [splitOnNl]
    cases h : splitOnNl cs with
    | nil => exact absurd h ih
    | cons r rs =>
      dsimp only
      split <;> simp

theorem mem_splitOnNl_byteLen_le : ∀ (s : Str), ∀ p ∈ splitOnNl s, byteLen p ≤ byteLen s := by
  intro s
  induction s with
  | nil =>
    intro p hp
    simp only [splitOnNl, List.mem_singleton] at hp
    subst hp; exact Nat.le_refl _
  | cons c cs ih =>
    intro p hp
    have hstep : byteLen cs ≤ byteLen (c :: cs) := by
      show byteLen cs ≤ byteLen ([c] ++ cs)
      rw [byteLen_append]
      omega
    rcases hsp : splitOnNl cs with _ | ⟨r, rs⟩
    · exact absurd hsp (splitOnNl_ne_nil cs)
    · simp only [splitOnNl, hsp] at hp
      by_cases hc : c = '\n'
      · rw [if_pos hc] at hp
        rcases List.mem_cons.mp hp with hp | hp
        · subst hp; simp [byteLen]
        · exact Nat.le_trans (ih p (by rw [hsp]; exact hp)) hstep
      · rw [if_neg hc] at hp
        rcases List.mem_cons.mp hp with hp | hp
        · subst hp
          show byteLen ([c] ++ r) ≤ byteLen ([c] ++ cs)
          rw [byteLen_append, byteLen_append]
          have hr : byteLen r ≤ byteLen cs :=
            ih r (by rw [hsp]; exact List.mem_cons_self _ _)
          omega
        · exact Nat.le_trans (ih p (by rw [hsp]; exact List.mem_cons_of_mem _ hp)) hstep

theorem mem_rustLines_byteLen_le (s : Str) : ∀ p ∈ rustLines s, byteLen p ≤ byteLen s := by
  intro p hp
  simp only [rustLines] at hp
  rcases List.mem_append.mp hp with hp | hp
  · obtain ⟨q, hq, rfl⟩ := List.mem_map.mp hp
    have hq' : q ∈ splitOnNl s := (List.dropLast_sublist _).subset hq
    exact Nat.le_trans (stripCR_byteLen_le q) (mem_splitOnNl_byteLen_le s q hq')
  · rcases h : (splitOnNl s).getLast? with _ | q
    · rw [h] at hp; cases hp
    · rw [h] at hp
      have hq : q ∈ splitOnNl s := by
        have hne := splitOnNl_ne_nil s
        rw [List.getLast?_eq_getLast _ hne] at h
        exact (Option.some_inj.mp h) ▸ List.getLast_mem hne
      cases q with
      | nil => cases hp
      | cons a as =>
        simp only [List.mem_singleton] at hp
        subst hp
        exact mem_splitOnNl_byteLen_le s _ hq

theorem getD_mem_or_nil (l : List Str) (i : Nat) : l.getD i [] ∈ l ∨ l.getD i [] = [] := by
  cases h : l.get? i with
  | none =>
    right
    simp [List.getD_eq_getElem?_getD, ← List.get?_eq_getElem?, h]
  | some a =>
    left
    have ha : l.getD i [] = a := by
      simp [List.getD_eq_getElem?_getD, ← List.get?_eq_getElem?, h]
    rw [ha]
    exact List.get?_mem h

theorem joinSep_cons_ne (sep x : Str) {l : List Str} (h : l ≠ []) :
    joinSep sep (x :: l) = x ++ sep ++ joinSep sep l := by
  cases l with
  | nil => exact absurd rfl h
  | cons y ys => rfl

theorem flatten_map_append_joinSep (sep : Str) :
    ∀ (lines rest : List Str), rest ≠ [] →
      List.flatten (lines.map (fun l => l ++ sep)) ++ joinSep sep rest =
        joinSep sep (lines ++ rest) := by
  intro lines
  induction lines with
  | nil => intro rest _; simp
  | cons x xs ih =>
    intro rest hr
    have hx : xs ++ rest ≠ [] := by
      intro e
      exact hr (List.append_eq_nil.mp e).2
    rw [List.cons_append, joinSep_cons_ne sep x hx, ← ih rest hr]
    simp [List.append_assoc]

theorem formatSlice_eq_lines (st : SimpleBorderStyle) (entries : List Str) :
    formatSlice st entries = joinSep ['\n'] (sliceLines st entries) := by
  simp only [formatSlice, sliceLines, sliceMiddle]
  have h1 : ((List.range (sliceHeight (entries.map rustLines))).map
      (fun i => sliceRow st (entries.map rustLines) (sliceWidth (entries.map rustLines)) i ++ ['\n'])) =
      ((List.range (sliceHeight (entries.map rustLines))).map
        (sliceRow st (entries.map rustLines) (sliceWidth (entries.map rustLines)))).map
        (fun l => l ++ ['\n']) := by
    rw [List.map_map]
    rfl
  rw [h1]
  have h2 := flatten_map_append_joinSep ['\n']
    ((List.range (sliceHeight (entries.map rustLines))).map
      (sliceRow st (entries.map rustLines) (sliceWidth (entries.map rustLines))))
    [getBottomLine st entries.length (sliceWidth (entries.map rustLines))] (by simp)
  have h3 : joinSep ['\n'] [getBottomLine st entries.length (sliceWidth (entries.map rustLines))] =
      getBottomLine st entries.length (sliceWidth (entries.map rustLines)) := rfl
  rw [h3] at h2
  rw [joinSep_cons_ne ['\n'] _ (by simp), ← h2]
  simp [List.append_assoc]

theorem hmMiddle_append_bottom (st : SimpleBorderStyle) (kw vw : Nat) (b : Str) :
    ∀ es : List (List Str × List Str),
      hmMiddle st kw vw es ++ b = joinSep ['\n'] (hmMiddleLines st kw vw es ++ [b]) := by
  intro es
  induction es with
  | nil => simp [hmMiddle, hmMiddleLines, joinSep]
  | cons e es ih =>
    cases es with
    | nil =>
      show hmEntryBlock st kw vw e ++ b = joinSep ['\n'] (hmBlockLines st kw vw e ++ [b])
      rw [← flatten_map_append_joinSep ['\n'] _ [b] (by simp)]
      rfl
    | cons e₂ es₂ =>
      simp only [hmMiddle, hmMiddleLines]
      rw [List.append_assoc (hmBlockLines st kw vw e), List.cons_append]
      have hne : hmMiddleLines st kw vw (e₂ :: es₂) ++ [b] ≠ [] := by simp
      rw [← flatten_map_append_joinSep ['\n'] (hmBlockLines st kw vw e)
          (hmDividerRow st kw vw :: (hmMiddleLines st kw vw (e₂ :: es₂) ++ [b])) (by simp),
        joinSep_cons_ne ['\n'] (hmDividerRow st kw vw) hne, ← ih]
      simp [hmEntryBlock, List.append_assoc]

theorem formatHashMapHeaders_eq_lines (st : SimpleBorderStyle) (m : List (Str × Str))
    (kh vh : Str) :
    formatHashMapHeaders st m kh vh = joinSep ['\n'] (hmLines st m kh vh) := by
  unfold formatHashMapHeaders hmLines
  rw [joinSep_cons_ne ['\n'] _ (by simp), ← hmMiddle_append_bottom]
  simp [List.append_assoc]

theorem length_joinSep_const (sep : Str) (w : Nat) :
    ∀ parts : List Str, (∀ p ∈ parts, p.length = w) →
      (joinSep sep parts).length = parts.length * w + (parts.length - 1) * sep.length := by
  intro parts
  induction parts with
  | nil => intro _; simp [joinSep]
  | cons x xs ih =>
    intro hall
    cases xs with
    | nil =>
      simp [joinSep, hall x (List.mem_cons_self _ _)]
    | cons y ys =>
      have hx : x.length = w := hall x (List.mem_cons_self _ _)
      have htail := ih (fun p hp => hall p (List.mem_cons_of_mem _ hp))
      show (x ++ sep ++ joinSep sep (y :: ys)).length = _
      rw [List.length_append, List.length_append, hx, htail]
      simp only [List.length_cons, Nat.add_sub_cancel]
      ring

theorem repChar_length (c : Char) (n : Nat) : (repChar c n).length = n := by
  simp [repChar]

theorem getTopLine_length (st : SimpleBorderStyle) (n w : Nat) :
    (getTopLine st n w).length = n * w + (n - 1) + 2 := by
  have h := length_joinSep_const [st.horizontal_down] w
    (List.replicate n (repChar st.horizontal w))
    (fun p hp => by rw [List.eq_of_mem_replicate hp]; exact repChar_length _ _)
  simp only [List.length_replicate, List.length_singleton, Nat.mul_one] at h
  simp only [getTopLine, List.length_cons, List.length_append, h, List.length_replicate,
    List.length_singleton, List.length_nil]

theorem getBottomLine_length (st : SimpleBorderStyle) (n w : Nat) :
    (getBottomLine st n w).length = n * w + (n - 1) + 2 := by
  have h := length_joinSep_const [st.horizontal_up] w
    (List.replicate n (repChar st.horizontal w))
    (fun p hp => by rw [List.eq_of_mem_replicate hp]; exact repChar_length _ _)
  simp only [List.length_replicate, List.length_singleton, Nat.mul_one] at h
  simp only [getBottomLine, List.length_cons, List.length_append, h, List.length_replicate,
    List.length_singleton, List.length_nil]

theorem sliceWidth_bound (el : List (List Str)) :
    ∀ ls ∈ el, ∀ l ∈ ls, l.length ≤ sliceWidth el := by
  intro ls hls l hl
  have h1 : l.length ≤ maxD 0 (ls.map List.length) :=
    le_maxD_of_mem 0 _ _ (List.mem_map.mpr ⟨l, hl, rfl⟩)
  have h2 : maxD 0 (ls.map List.length) ≤ sliceWidth el :=
    le_maxD_of_mem 1 _ _ (List.mem_map.mpr ⟨ls, hls, rfl⟩)
  exact Nat.le_trans h1 h2

theorem sliceRow_length (st : SimpleBorderStyle) (el : List (List Str)) (w i : Nat)
    (hb : ∀ ls ∈ el, ∀ l ∈ ls, l.length ≤ w) :
    (sliceRow st el w i).length = el.length * w + (el.length - 1) + 2 := by
  have h := length_joinSep_const [st.vertical] w (el.map (fun ls => padLeft w (ls.getD i [])))
    (fun p hp => by
      obtain ⟨ls, hls, rfl⟩ := List.mem_map.mp hp
      rcases getD_mem_or_nil ls i with hm | hm
      · exact padLeft_length (hb ls hls _ hm)
      · rw [hm]
        exact padLeft_length (by simp))
  simp only [List.length_map, List.length_singleton, Nat.mul_one] at h
  simp only [sliceRow, List.length_cons, List.length_append, h, List.length_map,
    List.length_singleton, List.length_nil]

theorem hmTopLine_length (st : SimpleBorderStyle) (kw vw : Nat) :
    (hmTopLine st kw vw).length = kw + vw + 3 := by
  simp only [hmTopLine, List.length_cons, List.length_append, repChar_length,
    List.length_singleton, List.length_nil]
  omega

theorem hmBottomLine_length (st : SimpleBorderStyle) (kw vw : Nat) :
    (hmBottomLine st kw vw).length = kw + vw + 3 := by
  simp only [hmBottomLine, List.length_cons, List.length_append, repChar_length,
    List.length_singleton, List.length_nil]
  omega

theorem hmDividerRow_length (st : SimpleBorderStyle) (kw vw : Nat) :
    (hmDividerRow st kw vw).length = kw + vw + 3 := by
  simp only [hmDividerRow, List.length_cons, List.length_append, repChar_length,
    List.length_singleton, List.length_nil]
  omega

theorem hmRow_length (st : SimpleBorderStyle) (kw vw : Nat) (key val : List Str) (j : Nat)
    (hk : ∀ l ∈ key, l.length ≤ kw) (hv : ∀ l ∈ val, l.length ≤ vw) :
    (hmRow st kw vw key val j).length = kw + vw + 3 := by
  have hkp : (padLeft kw (key.getD j [])).length = kw := by
    rcases getD_mem_or_nil key j with hm | hm
    · exact padLeft_length (hk _ hm)
    · rw [hm]; exact padLeft_length (by simp)
  have hvp : (padLeft vw (val.getD j [])).length = vw := by
    rcases getD_mem_or_nil val j with hm | hm
    · exact padLeft_length (hv _ hm)
    · rw [hm]; exact padLeft_length (by simp)
  simp only [hmRow, List.length_cons, List.length_append, hkp, hvp, List.length_singleton,
    List.length_nil]
  omega

theorem mem_rustLines_length_le (s : Str) : ∀ p ∈ rustLines s, p.length ≤ byteLen s :=
  fun p hp => Nat.le_trans (length_le_byteLen p) (mem_rustLines_byteLen_le s p hp)

theorem cellW_bound (s : Str) : ∀ l ∈ rustLines s, byteLen l ≤ cellW s :=
  fun l hl => le_maxD_of_mem 1 _ _ (List.mem_map.mpr ⟨l, hl, rfl⟩)

theorem hmEntries_bounded (m : List (Str × Str)) (kh vh : Str) :
    ∀ e ∈ hmEntries m kh vh,
      (∀ l ∈ e.1, l.length ≤ hmKeyWidth m kh) ∧ (∀ l ∈ e.2, l.length ≤ hmValWidth m vh) := by
  intro e he
  have hdata : ∀ p ∈ m, (∀ l ∈ rustLines p.1, l.length ≤ hmKeyWidth m kh) ∧
      (∀ l ∈ rustLines p.2, l.length ≤ hmValWidth m vh) := by
    intro p hp
    constructor
    · intro l hl
      have h1 : byteLen l ≤ cellW p.1 := cellW_bound _ l hl
      have h2 : cellW p.1 ≤ maxD 1 (m.map (fun q => cellW q.1)) :=
        le_maxD_of_mem 1 _ _ (List.mem_map.mpr ⟨p, hp, rfl⟩)
      calc l.length ≤ byteLen l := length_le_byteLen l
      _ ≤ maxD 1 (m.map (fun q => cellW q.1)) := Nat.le_trans h1 h2
      _ ≤ hmKeyWidth m kh := Nat.le_max_left _ _
    · intro l hl
      have h1 : byteLen l ≤ cellW p.2 := cellW_bound _ l hl
      have h2 : cellW p.2 ≤ maxD 1 (m.map (fun q => cellW q.2)) :=
        le_maxD_of_mem 1 _ _ (List.mem_map.mpr ⟨p, hp, rfl⟩)
      calc l.length ≤ byteLen l := length_le_byteLen l
      _ ≤ maxD 1 (m.map (fun q => cellW q.2)) := Nat.le_trans h1 h2
      _ ≤ hmValWidth m vh := Nat.le_max_left _ _
  simp only [hmEntries] at he
  split at he
  · rcases List.mem_cons.mp he with he | he
    · subst he
      constructor
      · intro l hl
        calc l.length ≤ byteLen kh := mem_rustLines_length_le kh l hl
        _ ≤ hmKeyWidth m kh := Nat.le_max_right _ _
      · intro l hl
        calc l.length ≤ byteLen vh := mem_rustLines_length_le vh l hl
        _ ≤ hmValWidth m vh := Nat.le_max_right _ _
    · obtain ⟨p, hp, rfl⟩ := List.mem_map.mp he
      exact hdata p hp
  · obtain ⟨p, hp, rfl⟩ := List.mem_map.mp he
    exact hdata p hp

theorem hmMiddleLines_mem (st : SimpleBorderStyle) (kw vw : Nat) :
    ∀ (es : List (List Str × List Str)), ∀ l ∈ hmMiddleLines st kw vw es,
      (∃ e ∈ es, l ∈ hmBlockLines st kw vw e) ∨ l = hmDividerRow st kw vw := by
  intro es
  induction es with
  | nil => intro l hl; cases hl
  | cons e es ih =>
    cases es with
    | nil =>
      intro l hl
      exact Or.inl ⟨e, List.mem_cons_self _ _, hl⟩
    | cons e₂ es₂ =>
      intro l hl
      simp only [hmMiddleLines] at hl
      rcases List.mem_append.mp hl with hl | hl
      · exact Or.inl ⟨e, List.mem_cons_self _ _, hl⟩
      · rcases List.mem_cons.mp hl with hl | hl
        · exact Or.inr hl
        · rcases ih l hl with ⟨e', he', hl'⟩ | hl'
          · exact Or.inl ⟨e', List.mem_cons_of_mem _ he', hl'⟩
          · exact Or.inr hl'

theorem forall2_append {α β : Type} {R : α → β → Prop} :
    ∀ {a c : List α} {b d : List β}, List.Forall₂ R a b → List.Forall₂ R c d →
      List.Forall₂ R (a ++ c) (b ++ d) := by
  intro a c b d h1 h2
  induction h1 with
  | nil => exact h2
  | cons hx _ ih => exact List.Forall₂.cons hx ih

theorem forall2_self {α : Type} {R : α → α → Prop} (h : ∀ x, R x x) :
    ∀ l : List α, List.Forall₂ R l l := by
  intro l
  induction l with
  | nil => exact List.Forall₂.nil
  | cons x xs ih => exact List.Forall₂.cons (h x) ih

theorem forall2_replicate {α β : Type} {R : α → β → Prop} {a : α} {b : β} (h : R a b)
    (n : Nat) : List.Forall₂ R (List.replicate n a) (List.replicate n b) := by
  induction n with
  | zero => exact List.Forall₂.nil
  | succ k ih => exact List.Forall₂.cons h ih

theorem forall2_map_pair {α β γ : Type} {R : β → γ → Prop} (f : α → β) (g : α → γ) :
    ∀ l : List α, (∀ x ∈ l, R (f x) (g x)) → List.Forall₂ R (l.map f) (l.map g) := by
  intro l
  induction l with
  | nil => intro _; exact List.Forall₂.nil
  | cons x xs ih =>
    intro h
    exact List.Forall₂.cons (h x (List.mem_cons_self _ _))
      (ih (fun y hy => h y (List.mem_cons_of_mem _ hy)))

theorem forall2_joinSep {R : Char → Char → Prop} {sep sep' : Str}
    (hsep : List.Forall₂ R sep sep') :
    ∀ {parts parts' : List Str}, List.Forall₂ (List.Forall₂ R) parts parts' →
      List.Forall₂ R (joinSep sep parts) (joinSep sep' parts') := by
  intro parts
  induction parts with
  | nil =>
    intro parts' h
    cases h
    exact List.Forall₂.nil
  | cons x xs ih =>
    intro parts' h
    cases h with
    | cons hx htail =>
      cases xs with
      | nil =>
        cases htail
        exact hx
      | cons x₂ xs₂ =>
        cases htail with
        | cons h2 h3 =>
          show List.Forall₂ R (x ++ sep ++ joinSep sep (x₂ :: xs₂)) _
          exact forall2_append (forall2_append hx hsep) (ih (List.Forall₂.cons h2 h3))

theorem glyphRel_refl (st st' : SimpleBorderStyle) (a : Char) : glyphRel st st' a a :=
  Or.inl rfl

theorem countP_headVR_hmMiddleLines (st : SimpleBorderStyle)
    (hne : st.vertical ≠ st.vertical_right) (kw vw : Nat) :
    ∀ es : List (List Str × List Str),
      List.countP (headVR st) (hmMiddleLines st kw vw es) = es.length - 1 := by
  intro es
  have hblock : ∀ e, List.countP (headVR st) (hmBlockLines st kw vw e) = 0 := by
    intro e
    rw [List.countP_eq_zero]
    intro l hl
    obtain ⟨j, _, rfl⟩ := List.mem_map.mp hl
    simp only [headVR, hmRow, List.head?_cons, beq_iff_eq, Option.some_inj]
    exact hne
  have hdiv : headVR st (hmDividerRow st kw vw) = true := by
    simp [headVR, hmDividerRow]
  induction es with
  | nil => rfl
  | cons e es ih =>
    cases es with
    | nil =>
      show List.countP (headVR st) (hmBlockLines st kw vw e) = 0
      exact hblock e
    | cons e₂ es₂ =>
      show List.countP (headVR st)
        (hmBlockLines st kw vw e ++ hmDividerRow st kw vw :: hmMiddleLines st kw vw (e₂ :: es₂)) = _
      rw [List.countP_append, List.countP_cons_of_pos _ _ hdiv, hblock e, ih]
      simp

theorem getLast?_cons_of_ne {α : Type} (a : α) {l : List α} (h : l ≠ []) :
    (a :: l).getLast? = l.getLast? := by
  cases l with
  | nil => exact absurd rfl h
  | cons b bs => exact List.getLast?_cons_cons

theorem splitOnNl_append_nl : ∀ t : Str, splitOnNl (t ++ ['\n']) = splitOnNl t ++ [[]] := by
  intro t
  induction t with
  | nil => rfl
  | cons c cs ih =>
    show (match splitOnNl (cs ++ ['\n']) with
      | [] => [[c]]
      | r :: rs => if c = '\n' then [] :: r :: rs else (c :: r) :: rs) =
      (match splitOnNl cs with
      | [] => [[c]]
      | r :: rs => if c = '\n' then [] :: r :: rs else (c :: r) :: rs) ++ [[]]
    rw [ih]
    cases h : splitOnNl cs with
    | nil => exact absurd h (splitOnNl_ne_nil cs)
    | cons r rs =>
      show (if c = '\n' then [] :: r :: (rs ++ [[]]) else (c :: r) :: (rs ++ [[]])) =
        (if c = '\n' then [] :: r :: rs else (c :: r) :: rs) ++ [[]]
      by_cases hc : c = '\n'
      · rw [if_pos hc, if_pos hc]
        rfl
      · rw [if_neg hc, if_neg hc]
        rfl

theorem splitOnNl_getLast_props :
    ∀ t : Str, t ≠ [] → t.getLast? ≠ some '\n' →
      ∃ p, (splitOnNl t).getLast? = some p ∧ p ≠ [] ∧ p.getLast? = t.getLast? := by
  intro t
  induction t with
  | nil => intro h; exact absurd rfl h
  | cons c cs ih =>
    intro _ hlast
    cases cs with
    | nil =>
      have hc : c ≠ '\n' := by
        intro e
        exact hlast (by simp [e])
      refine ⟨[c], ?_, by simp, by simp⟩
      show (match splitOnNl [] with
        | [] => [[c]]
        | r :: rs => if c = '\n' then [] :: r :: rs else (c :: r) :: rs).getLast? = some [c]
      simp [splitOnNl, hc]
    | cons c₂ cs₂ =>
      have hcs : (c₂ :: cs₂ : Str) ≠ [] := by simp
      have hlast' : (c₂ :: cs₂ : Str).getLast? ≠ some '\n' := by
        rwa [List.getLast?_cons_cons] at hlast
      obtain ⟨p, hp, hpne, hpl⟩ := ih hcs hlast'
      have hgoal_last : (c :: c₂ :: cs₂ : Str).getLast? = (c₂ :: cs₂ : Str).getLast? :=
        List.getLast?_cons_cons
      show ∃ p', (match splitOnNl (c₂ :: cs₂) with
        | [] => [[c]]
        | r :: rs => if c = '\n' then [] :: r :: rs else (c :: r) :: rs).getLast? = some p' ∧
          p' ≠ [] ∧ p'.getLast? = (c :: c₂ :: cs₂ : Str).getLast?
      cases hsp : splitOnNl (c₂ :: cs₂) with
      | nil => exact absurd hsp (splitOnNl_ne_nil _)
      | cons r rs =>
        dsimp only
        rw [hsp] at hp
        by_cases hc : c = '\n'
        · rw [if_pos hc]
          refine ⟨p, ?_, hpne, by rw [hpl, hgoal_last]⟩
          rw [getLast?_cons_of_ne _ (by simp)]
          exact hp
        · rw [if_neg hc]
          cases rs with
          | nil =>
            have hrp : r = p := by
              simpa using hp
            subst hrp
            refine ⟨c :: r, by simp, by simp, ?_⟩
            rw [getLast?_cons_of_ne _ hpne, hpl, hgoal_last]
          | cons r₂ rs₂ =>
            refine ⟨p, ?_, hpne, by rw [hpl, hgoal_last]⟩
            rw [getLast?_cons_of_ne _ (by simp)]
            rw [getLast?_cons_of_ne _ (by simp)] at hp
            exact hp

theorem rustLines_append_nl (t : Str) (hne : t ≠ []) (hnl : t.getLast? ≠ some '\n')
    (hcr : t.getLast? ≠ some '\r') : rustLines (t ++ ['\n']) = rustLines t := by
  obtain ⟨p, hp, hpne, hpl⟩ := splitOnNl_getLast_props t hne hnl
  have hparts : splitOnNl t ≠ [] := splitOnNl_ne_nil t
  have hlast : (splitOnNl t).getLast hparts = p := by
    rw [List.getLast?_eq_getLast _ hparts] at hp
    exact Option.some_inj.mp hp
  have hdecomp : (splitOnNl t).dropLast ++ [p] = splitOnNl t := by
    rw [← hlast]
    exact List.dropLast_append_getLast hparts
  have hstrip : stripCR p = p := by
    unfold stripCR
    rw [hpl, if_neg hcr]
  show (splitOnNl (t ++ ['\n'])).dropLast.map stripCR ++ _ =
    (splitOnNl t).dropLast.map stripCR ++ _
  rw [splitOnNl_append_nl t, List.dropLast_concat, List.getLast?_concat]
  conv_lhs => rw [← hdecomp]
  rw [List.map_append, hp]
  cases hq : p with
  | nil => exact absurd hq hpne
  | cons a as =>
    simp only [List.map_cons, List.map_nil]
    rw [← hq, hstrip]
    simp

theorem forall2_glyph_self (st st' : SimpleBorderStyle) (l : Str) :
    List.Forall₂ (glyphRel st st') l l :=
  forall2_self (glyphRel_refl st st') l

theorem forall2_glyph_repChar (st st' : SimpleBorderStyle) {a b : Char}
    (h : glyphRel st st' a b) (w : Nat) :
    List.Forall₂ (glyphRel st st') (repChar a w) (repChar b w) := by
  simp only [repChar]
  exact forall2_replicate h w

theorem forall2_glyph_getTopLine (st st' : SimpleBorderStyle) (n w : Nat) :
    List.Forall₂ (glyphRel st st') (getTopLine st n w) (getTopLine st' n w) :=
  List.Forall₂.cons (by simp [glyphRel])
    (forall2_append
      (forall2_joinSep (List.Forall₂.cons (by simp [glyphRel]) List.Forall₂.nil)
        (forall2_replicate (forall2_glyph_repChar st st' (by simp [glyphRel]) w) n))
      (List.Forall₂.cons (by simp [glyphRel]) List.Forall₂.nil))

theorem forall2_glyph_getBottomLine (st st' : SimpleBorderStyle) (n w : Nat) :
    List.Forall₂ (glyphRel st st') (getBottomLine st n w) (getBottomLine st' n w) :=
  List.Forall₂.cons (by simp [glyphRel])
    (forall2_append
      (forall2_joinSep (List.Forall₂.cons (by simp [glyphRel]) List.Forall₂.nil)
        (forall2_replicate (forall2_glyph_repChar st st' (by simp [glyphRel]) w) n))
      (List.Forall₂.cons (by simp [glyphRel]) List.Forall₂.nil))

theorem forall2_glyph_sliceRow (st st' : SimpleBorderStyle) (el : List (List Str))
    (w i : Nat) :
    List.Forall₂ (glyphRel st st') (sliceRow st el w i) (sliceRow st' el w i) :=
  List.Forall₂.cons (by simp [glyphRel])
    (forall2_append
      (forall2_joinSep (List.Forall₂.cons (by simp [glyphRel]) List.Forall₂.nil)
        (forall2_self (forall2_glyph_self st st') _))
      (List.Forall₂.cons (by simp [glyphRel]) List.Forall₂.nil))

theorem forall2_glyph_sliceLines (st st' : SimpleBorderStyle) (entries : List Str) :
    List.Forall₂ (List.Forall₂ (glyphRel st st'))
      (sliceLines st entries) (sliceLines st' entries) := by
  simp only [sliceLines]
  exact List.Forall₂.cons (forall2_glyph_getTopLine st st' _ _)
    (forall2_append
      (forall2_map_pair _ _ _ (fun i _ => forall2_glyph_sliceRow st st' _ _ i))
      (List.Forall₂.cons (forall2_glyph_getBottomLine st st' _ _) List.Forall₂.nil))

theorem forall2_glyph_hmTopLine (st st' : SimpleBorderStyle) (kw vw : Nat) :
    List.Forall₂ (glyphRel st st') (hmTopLine st kw vw) (hmTopLine st' kw vw) :=
  List.Forall₂.cons (by simp [glyphRel])
    (forall2_append (forall2_glyph_repChar st st' (by simp [glyphRel]) kw)
      (List.Forall₂.cons (by simp [glyphRel])
        (forall2_append (forall2_glyph_repChar st st' (by simp [glyphRel]) vw)
          (List.Forall₂.cons (by simp [glyphRel]) List.Forall₂.nil))))

theorem forall2_glyph_hmBottomLine (st st' : SimpleBorderStyle) (kw vw : Nat) :
    List.Forall₂ (glyphRel st st') (hmBottomLine st kw vw) (hmBottomLine st' kw vw) :=
  List.Forall₂.cons (by simp [glyphRel])
    (forall2_append (forall2_glyph_repChar st st' (by simp [glyphRel]) kw)
      (List.Forall₂.cons (by simp [glyphRel])
        (forall2_append (forall2_glyph_repChar st st' (by simp [glyphRel]) vw)
          (List.Forall₂.cons (by simp [glyphRel]) List.Forall₂.nil))))

theorem forall2_glyph_hmDividerRow (st st' : SimpleBorderStyle) (kw vw : Nat) :
    List.Forall₂ (glyphRel st st') (hmDividerRow st kw vw) (hmDividerRow st' kw vw) :=
  List.Forall₂.cons (by simp [glyphRel])
    (forall2_append (forall2_glyph_repChar st st' (by simp [glyphRel]) kw)
      (List.Forall₂.cons (by simp [glyphRel])
        (forall2_append (forall2_glyph_repChar st st' (by simp [glyphRel]) vw)
          (List.Forall₂.cons (by simp [glyphRel]) List.Forall₂.nil))))

theorem forall2_glyph_hmRow (st st' : SimpleBorderStyle) (kw vw : Nat)
    (key val : List Str) (j : Nat) :
    List.Forall₂ (glyphRel st st') (hmRow st kw vw key val j) (hmRow st' kw vw key val j) :=
  List.Forall₂.cons (by simp [glyphRel])
    (forall2_append (forall2_glyph_self st st' _)
      (List.Forall₂.cons (by simp [glyphRel])
        (forall2_append (forall2_glyph_self st st' _)
          (List.Forall₂.cons (by simp [glyphRel]) List.Forall₂.nil))))

theorem forall2_glyph_hmBlockLines (st st' : SimpleBorderStyle) (kw vw : Nat)
    (e : List Str × List Str) :
    List.Forall₂ (List.Forall₂ (glyphRel st st'))
      (hmBlockLines st kw vw e) (hmBlockLines st' kw vw e) :=
  forall2_map_pair _ _ _ (fun j _ => forall2_glyph_hmRow st st' kw vw e.1 e.2 j)

theorem forall2_glyph_hmMiddleLines (st st' : SimpleBorderStyle) (kw vw : Nat) :
    ∀ es : List (List Str × List Str),
      List.Forall₂ (List.Forall₂ (glyphRel st st'))
        (hmMiddleLines st kw vw es) (hmMiddleLines st' kw vw es) := by
  intro es
  induction es with
  | nil => exact List.Forall₂.nil
  | cons e es ih =>
    cases es with
    | nil => exact forall2_glyph_hmBlockLines st st' kw vw e
    | cons e₂ es₂ =>
      show List.Forall₂ _
        (hmBlockLines st kw vw e ++ hmDividerRow st kw vw :: hmMiddleLines st kw vw (e₂ :: es₂)) _
      exact forall2_append (forall2_glyph_hmBlockLines st st' kw vw e)
        (List.Forall₂.cons (forall2_glyph_hmDividerRow st st' kw vw) ih)

theorem forall2_glyph_hmLines (st st' : SimpleBorderStyle) (m : List (Str × Str))
    (kh vh : Str) :
    List.Forall₂ (List.Forall₂ (glyphRel st st'))
      (hmLines st m kh vh) (hmLines st' m kh vh) :=
  List.Forall₂.cons (forall2_glyph_hmTopLine st st' _ _)
    (forall2_append (forall2_glyph_hmMiddleLines st st' _ _ _)
      (List.Forall₂.cons (forall2_glyph_hmBottomLine st st' _ _) List.Forall₂.nil))

/-! ## Claim theorems -/

/-- C1, counterexample: for the one-entry mapping whose key is `"é"` (two
UTF-8 bytes, one Unicode scalar) with an empty key header, the code's
key-column width is 2 (the byte length), while the claim's formula — the
maximum Unicode-scalar count over the header and the key's physical lines,
with minimum 1 — yields 1. -/
theorem hm_key_width_not_scalar_count :
    hmKeyWidth [(['é'], ['x'])] [] = 2 ∧
    Nat.max 1 (Nat.max (List.length ([] : Str))
      (maxD 0 ((rustLines ['é']).map List.length))) = 1 ∧
    hmKeyWidth [(['é'], ['x'])] [] ≠
      Nat.max 1 (Nat.max (List.length ([] : Str))
        (maxD 0 ((rustLines ['é']).map List.length))) := by
  decide

/-- C1, amended: the column widths of `format_hash_map_headers` are computed
from UTF-8 byte lengths, not scalar counts: each width is an upper bound of
the header's byte length and of the byte length of every physical line of
every cell in its column, and it is attained either by the header's byte
length, by some cell's contribution (the maximum byte length of the cell's
lines, or 1 when its text yields no lines), or is the default 1 for an
empty mapping.  No overall minimum of 1 is imposed beyond these defaults. -/
theorem hm_widths_are_byte_lengths (m : List (Str × Str)) (kh vh : Str) :
    (byteLen kh ≤ hmKeyWidth m kh) ∧
    (∀ p ∈ m, ∀ l ∈ rustLines p.1, byteLen l ≤ hmKeyWidth m kh) ∧
    (hmKeyWidth m kh = byteLen kh ∨ (m = [] ∧ hmKeyWidth m kh = 1) ∨
      ∃ p ∈ m, hmKeyWidth m kh = cellW p.1) ∧
    (byteLen vh ≤ hmValWidth m vh) ∧
    (∀ p ∈ m, ∀ l ∈ rustLines p.2, byteLen l ≤ hmValWidth m vh) ∧
    (hmValWidth m vh = byteLen vh ∨ (m = [] ∧ hmValWidth m vh = 1) ∨
      ∃ p ∈ m, hmValWidth m vh = cellW p.2) ∧
    (∀ s : Str, rustLines s = [] → cellW s = 1) ∧
    (∀ s : Str, rustLines s ≠ [] → ∃ l ∈ rustLines s, cellW s = byteLen l) := by
  have hub : ∀ (f : Str × Str → Str) (h : Str) (p : Str × Str), p ∈ m →
      ∀ l ∈ rustLines (f p), byteLen l ≤
        Nat.max (maxD 1 (m.map (fun q => cellW (f q)))) (byteLen h) := by
    intro f h p hp l hl
    calc byteLen l ≤ cellW (f p) := cellW_bound _ l hl
    _ ≤ maxD 1 (m.map (fun q => cellW (f q))) :=
      le_maxD_of_mem 1 _ _ (List.mem_map.mpr ⟨p, hp, rfl⟩)
    _ ≤ _ := Nat.le_max_left _ _
  have hattain : ∀ (f : Str × Str → Str) (h : Str),
      Nat.max (maxD 1 (m.map (fun q => cellW (f q)))) (byteLen h) = byteLen h ∨
      (m = [] ∧ Nat.max (maxD 1 (m.map (fun q => cellW (f q)))) (byteLen h) = 1) ∨
      ∃ p ∈ m, Nat.max (maxD 1 (m.map (fun q => cellW (f q)))) (byteLen h) = cellW (f p) := by
    intro f h
    rcases Nat.le_total (maxD 1 (m.map (fun q => cellW (f q)))) (byteLen h) with hle | hle
    · left
      unfold Nat.max
      exact sup_eq_right.mpr hle
    · have hmax : Nat.max (maxD 1 (m.map (fun q => cellW (f q)))) (byteLen h) =
          maxD 1 (m.map (fun q => cellW (f q))) := by
        unfold Nat.max
        exact sup_eq_left.mpr hle
      by_cases hm : m = []
      · right; left
        refine ⟨hm, ?_⟩
        rw [hmax, hm]
        rfl
      · right; right
        have hne : m.map (fun q => cellW (f q)) ≠ [] := by
          intro e
          exact hm (by simpa using e)
        obtain ⟨x, hx, hxe⟩ := maxD_attain 1 _ hne
        obtain ⟨p', hp', rfl⟩ := List.mem_map.mp hx
        exact ⟨p', hp', by rw [hmax, hxe]⟩
  refine ⟨Nat.le_max_right _ _, hub Prod.fst kh, hattain Prod.fst kh,
    Nat.le_max_right _ _, hub Prod.snd vh, hattain Prod.snd vh, ?_, ?_⟩
  · intro s hs
    simp [cellW, hs]
    rfl
  · intro s hs
    have hne : (rustLines s).map byteLen ≠ [] := by simp [hs]
    obtain ⟨x, hx, hxe⟩ := maxD_attain 1 _ hne
    obtain ⟨l, hl, rfl⟩ := List.mem_map.mp hx
    exact ⟨l, hl, hxe⟩

/-- C2: evaluation of `format_hash_map` at the documented example mapping
with keys `"Jon"`, `"Jake"`, `"Josh"` and headers `"Key"`/`"Value"`: the
code renders 4 entries (1 header + 3 data rows) and exactly 3 divider
lines, and the value-column width is 5, but the key-column width is 4
(the maximum of the key byte lengths 3, 4, 4 and the header length 3), not
the 5 shown in the crate's documentation example and claimed by the spec. -/
theorem hash_map_example_metrics :
    (hmEntries [("Jon".toList, "38".toList), ("Jake".toList, "25".toList),
      ("Josh".toList, "17".toList)] ("Key".toList) ("Value".toList)).length = 4 ∧
    List.countP (headVR THIN)
      (hmMiddleLines THIN
        (hmKeyWidth [("Jon".toList, "38".toList), ("Jake".toList, "25".toList),
          ("Josh".toList, "17".toList)] ("Key".toList))
        (hmValWidth [("Jon".toList, "38".toList), ("Jake".toList, "25".toList),
          ("Josh".toList, "17".toList)] ("Value".toList))
        (hmEntries [("Jon".toList, "38".toList), ("Jake".toList, "25".toList),
          ("Josh".toList, "17".toList)] ("Key".toList) ("Value".toList))) = 3 ∧
    hmValWidth [("Jon".toList, "38".toList), ("Jake".toList, "25".toList),
      ("Josh".toList, "17".toList)] ("Value".toList) = 5 ∧
    hmKeyWidth [("Jon".toList, "38".toList), ("Jake".toList, "25".toList),
      ("Josh".toList, "17".toList)] ("Key".toList) = 4 ∧
    hmKeyWidth [("Jon".toList, "38".toList), ("Jake".toList, "25".toList),
      ("Josh".toList, "17".toList)] ("Key".toList) ≠ 5 := by
  decide

/-- C3, counterexample: for the one-element sequence containing the empty
string, the computed shared column width is 0, refuting the claimed minimum
of 1; the full rendering degenerates to a two-character-wide box with no
content rows. -/
theorem slice_width_zero_on_empty_text :
    sliceWidth (List.map rustLines [([] : Str)]) = 0 ∧
    ¬(1 ≤ sliceWidth (List.map rustLines [([] : Str)])) ∧
    formatSlice THIN [([] : Str)] = ['┌', '┐', '\n', '└', '┘'] := by
  decide

/-- C3, amended: for every sequence, the shared column width is an upper
bound of the scalar count of every physical line of every element, it is 1
for the empty sequence, and for a non-empty sequence it is either 0 (in
particular when some width-maximal element has no physical lines) or the
scalar count of some element's physical line.  There is no minimum of 1 for
non-empty sequences. -/
theorem slice_width_characterization (entries : List Str) :
    (∀ e ∈ entries, ∀ l ∈ rustLines e, l.length ≤ sliceWidth (entries.map rustLines)) ∧
    (entries = [] → sliceWidth (entries.map rustLines) = 1) ∧
    (entries ≠ [] → sliceWidth (entries.map rustLines) = 0 ∨
      ∃ e ∈ entries, ∃ l ∈ rustLines e, sliceWidth (entries.map rustLines) = l.length) := by
  refine ⟨?_, ?_, ?_⟩
  · intro e he l hl
    exact sliceWidth_bound _ (rustLines e) (List.mem_map.mpr ⟨e, he, rfl⟩) l hl
  · intro h
    subst h
    rfl
  · intro hne
    have hmne : entries.map rustLines ≠ [] := by
      intro e
      exact hne (by simpa using e)
    have hmmne : (entries.map rustLines).map (fun ls => maxD 0 (ls.map List.length)) ≠ [] := by
      intro e
      exact hmne (by simpa using e)
    obtain ⟨x, hx, hxe⟩ := maxD_attain 1 _ hmmne
    obtain ⟨ls, hls, rfl⟩ := List.mem_map.mp hx
    obtain ⟨e, he, rfl⟩ := List.mem_map.mp hls
    cases hrl : rustLines e with
    | nil =>
      left
      rw [show sliceWidth (entries.map rustLines) = maxD 0 ((rustLines e).map List.length) from hxe,
        hrl]
      rfl
    | cons l₀ ls₀ =>
      right
      have hlne : (rustLines e).map List.length ≠ [] := by rw [hrl]; simp
      obtain ⟨y, hy, hye⟩ := maxD_attain 0 _ hlne
      obtain ⟨l, hl, rfl⟩ := List.mem_map.mp hy
      exact ⟨e, he, l, hl, by rw [show sliceWidth (entries.map rustLines) =
        maxD 0 ((rustLines e).map List.length) from hxe, hye]⟩

/-- C4: for every sequence, the rendered row height (the number of content
lines between the borders) is an upper bound of every element's physical
line count and is attained by some element when the sequence is non-empty;
the empty sequence degenerates to height 1 and width 1; when every element
is single-line the height is 1; and the rendering has exactly height + 2
lines (top border, content rows, bottom border). -/
theorem slice_height_characterization (st : SimpleBorderStyle) (entries : List Str) :
    (∀ e ∈ entries, (rustLines e).length ≤ sliceHeight (entries.map rustLines)) ∧
    (entries = [] → sliceHeight (entries.map rustLines) = 1 ∧
      sliceWidth (entries.map rustLines) = 1) ∧
    (entries ≠ [] → ∃ e ∈ entries,
      sliceHeight (entries.map rustLines) = (rustLines e).length) ∧
    ((∀ e ∈ entries, (rustLines e).length = 1) → sliceHeight (entries.map rustLines) = 1) ∧
    (sliceLines st entries).length = sliceHeight (entries.map rustLines) + 2 := by
  have hattain : entries ≠ [] → ∃ e ∈ entries,
      sliceHeight (entries.map rustLines) = (rustLines e).length := by
    intro hne
    have hmne : (entries.map rustLines).map List.length ≠ [] := by
      intro e
      exact hne (by simpa using e)
    obtain ⟨x, hx, hxe⟩ := maxD_attain 1 _ hmne
    obtain ⟨ls, hls, rfl⟩ := List.mem_map.mp hx
    obtain ⟨e, he, rfl⟩ := List.mem_map.mp hls
    exact ⟨e, he, hxe⟩
  refine ⟨?_, ?_, hattain, ?_, ?_⟩
  · intro e he
    exact le_maxD_of_mem 1 _ _
      (List.mem_map.mpr ⟨rustLines e, List.mem_map.mpr ⟨e, he, rfl⟩, rfl⟩)
  · intro h
    subst h
    exact ⟨rfl, rfl⟩
  · intro hall
    by_cases hch : entries = []
    · subst hch
      rfl
    · obtain ⟨e', he', hee⟩ := hattain hch
      rw [hee]
      exact hall e' he'
  · simp [sliceLines]


/-- C5, counterexample: on the empty mapping, the headered rendering (with
`"Key"`/`"Value"`) contains zero divider lines, and so does the headerless
rendering — the headered one does not have one more divider line, refuting
the claim's unrestricted "exactly one fewer" clause. -/
theorem header_divider_delta_fails_on_empty_map :
    List.countP (headVR THIN)
      (hmMiddleLines THIN (hmKeyWidth [] ("Key".toList)) (hmValWidth [] ("Value".toList))
        (hmEntries [] ("Key".toList) ("Value".toList))) = 0 ∧
    List.countP (headVR THIN)
      (hmMiddleLines THIN (hmKeyWidth [] []) (hmValWidth [] []) (hmEntries [] [] [])) = 0 ∧
    ¬(List.countP (headVR THIN)
        (hmMiddleLines THIN (hmKeyWidth [] ("Key".toList)) (hmValWidth [] ("Value".toList))
          (hmEntries [] ("Key".toList) ("Value".toList))) =
      List.countP (headVR THIN)
        (hmMiddleLines THIN (hmKeyWidth [] []) (hmValWidth [] []) (hmEntries [] [] [])) + 1) := by
  decide

/-- C5, amended: `format_hash_map_headers` prepends a header entry iff at
least one header string is non-empty (the header-suppressed entry list has
exactly the mapping's length, the headered one has one more); for a
NON-EMPTY mapping, rendering with a header yields exactly one more divider
line than rendering the same data with both headers empty (divider lines
are the middle lines beginning with `vertical_right`, distinct from content
rows, which begin with `vertical`); and on the empty mapping with both
headers empty the output is the top border directly followed by the bottom
border, both with column widths 1. -/
theorem header_suppression_amended (st : SimpleBorderStyle) (m : List (Str × Str))
    (kh vh : Str) (hvr : st.vertical ≠ st.vertical_right) :
    (hmEntries m [] []).length = m.length ∧
    ((kh ≠ [] ∨ vh ≠ []) → (hmEntries m kh vh).length = m.length + 1) ∧
    (m ≠ [] → (kh ≠ [] ∨ vh ≠ []) →
      List.countP (headVR st) (hmMiddleLines st (hmKeyWidth m kh) (hmValWidth m vh)
        (hmEntries m kh vh)) =
      List.countP (headVR st) (hmMiddleLines st (hmKeyWidth m []) (hmValWidth m [])
        (hmEntries m [] [])) + 1) ∧
    formatHashMapHeaders st [] [] [] = hmTopLine st 1 1 ++ '\n' :: hmBottomLine st 1 1 := by
  have hlen0 : (hmEntries m [] []).length = m.length := by
    simp [hmEntries]
  have hlen1 : (kh ≠ [] ∨ vh ≠ []) → (hmEntries m kh vh).length = m.length + 1 := by
    intro h
    unfold hmEntries
    rw [if_pos h]
    simp
  refine ⟨hlen0, hlen1, ?_, ?_⟩
  · intro hm h
    rw [countP_headVR_hmMiddleLines st hvr (hmKeyWidth m kh) (hmValWidth m vh)
        (hmEntries m kh vh),
      countP_headVR_hmMiddleLines st hvr (hmKeyWidth m []) (hmValWidth m [])
        (hmEntries m [] []),
      hlen0, hlen1 h]
    have hp : 1 ≤ m.length := List.length_pos.mpr hm
    omega
  · have hE : hmEntries [] ([] : Str) ([] : Str) = [] := rfl
    have hK : hmKeyWidth [] ([] : Str) = 1 := rfl
    have hV : hmValWidth [] ([] : Str) = 1 := rfl
    show (hmTopLine st (hmKeyWidth [] []) (hmValWidth [] []) ++ ['\n']) ++
        hmMiddle st (hmKeyWidth [] []) (hmValWidth [] []) (hmEntries [] [] []) ++
        hmBottomLine st (hmKeyWidth [] []) (hmValWidth [] []) = _
    rw [hE, hK, hV]
    show (hmTopLine st 1 1 ++ ['\n']) ++ [] ++ hmBottomLine st 1 1 = _
    simp

/-- C5 witness: the amended statement applied with the thin style to the
one-entry mapping `[("a","b")]` and the headers `"K"`/`"V"`: two rendered
entries with the header, and exactly one more divider line than without it. -/
theorem header_suppression_amended_w :
    THIN.vertical ≠ THIN.vertical_right ∧
    (hmEntries [(['a'], ['b'])] ['K'] ['V']).length = 2 ∧
    List.countP (headVR THIN) (hmMiddleLines THIN (hmKeyWidth [(['a'], ['b'])] ['K'])
      (hmValWidth [(['a'], ['b'])] ['V']) (hmEntries [(['a'], ['b'])] ['K'] ['V'])) =
    List.countP (headVR THIN) (hmMiddleLines THIN (hmKeyWidth [(['a'], ['b'])] [])
      (hmValWidth [(['a'], ['b'])] []) (hmEntries [(['a'], ['b'])] [] [])) + 1 := by
  have h := header_suppression_amended THIN [(['a'], ['b'])] ['K'] ['V'] (by decide)
  exact ⟨by decide, by simpa using h.2.1 (Or.inl (by decide)),
    h.2.2.1 (by decide) (Or.inl (by decide))⟩

/-- C6: `format_hash_map` returns exactly `format_hash_map_headers` with
the headers `"Key"` and `"Value"`, the `"Key"` header entry is prepended as
the key (left-column) component of the first rendered entry, and the first
middle line of the rendering is the header row with `"Key"` right-aligned
in the left column and `"Value"` in the right column. -/
theorem format_hash_map_default_headers (st : SimpleBorderStyle) (m : List (Str × Str)) :
    formatHashMap st m = formatHashMapHeaders st m ("Key".toList) ("Value".toList) ∧
    hmEntries m ("Key".toList) ("Value".toList) =
      (rustLines ("Key".toList), rustLines ("Value".toList)) ::
        m.map (fun p => (rustLines p.1, rustLines p.2)) ∧
    (hmMiddleLines st (hmKeyWidth m ("Key".toList)) (hmValWidth m ("Value".toList))
        (hmEntries m ("Key".toList) ("Value".toList))).head? =
      some (st.vertical :: (padLeft (hmKeyWidth m ("Key".toList)) ("Key".toList) ++
        st.vertical :: (padLeft (hmValWidth m ("Value".toList)) ("Value".toList) ++
          [st.vertical]))) := by
  have hcond : ("Key".toList ≠ ([] : Str) ∨ "Value".toList ≠ ([] : Str)) :=
    Or.inl (by decide)
  have hE : hmEntries m ("Key".toList) ("Value".toList) =
      (rustLines ("Key".toList), rustLines ("Value".toList)) ::
        m.map (fun p => (rustLines p.1, rustLines p.2)) := by
    unfold hmEntries
    rw [if_pos hcond]
  have hKey : rustLines ("Key".toList) = [("Key".toList)] := by decide
  have hVal : rustLines ("Value".toList) = [("Value".toList)] := by decide
  have hb : hmBlockLines st (hmKeyWidth m ("Key".toList)) (hmValWidth m ("Value".toList))
      (rustLines ("Key".toList), rustLines ("Value".toList)) =
      [hmRow st (hmKeyWidth m ("Key".toList)) (hmValWidth m ("Value".toList))
        (rustLines ("Key".toList)) (rustLines ("Value".toList)) 0] := by
    rw [hKey, hVal]
    rfl
  have hrow0 : hmRow st (hmKeyWidth m ("Key".toList)) (hmValWidth m ("Value".toList))
      (rustLines ("Key".toList)) (rustLines ("Value".toList)) 0 =
      st.vertical :: (padLeft (hmKeyWidth m ("Key".toList)) ("Key".toList) ++
        st.vertical :: (padLeft (hmValWidth m ("Value".toList)) ("Value".toList) ++
          [st.vertical])) := by
    rw [hKey, hVal]
    rfl
  refine ⟨rfl, hE, ?_⟩
  rw [hE]
  cases hmm : m.map (fun p => (rustLines p.1, rustLines p.2)) with
  | nil =>
    show (hmBlockLines st _ _ _).head? = _
    rw [hb, hrow0]
    rfl
  | cons e₂ es₂ =>
    show (hmBlockLines st _ _ _ ++ hmDividerRow st _ _ ::
      hmMiddleLines st _ _ (e₂ :: es₂)).head? = _
    rw [hb, hrow0]
    rfl

/-- C7: every rendered line has the same character length as the top border
line.  For the row-table path every line of the rendering (top border,
every content row, bottom border) has length
`n * width + (n - 1) + 2` where `n` is the element count; for the key/value
path every line (borders, content rows, divider lines) has length
`key_width + value_width + 3`. -/
theorem border_line_lengths_uniform (st : SimpleBorderStyle) (entries : List Str)
    (m : List (Str × Str)) (kh vh : Str) :
    (∀ l ∈ sliceLines st entries,
      l.length = entries.length * sliceWidth (entries.map rustLines) +
        (entries.length - 1) + 2) ∧
    (∀ l ∈ hmLines st m kh vh, l.length = hmKeyWidth m kh + hmValWidth m vh + 3) := by
  constructor
  · intro l hl
    simp only [sliceLines] at hl
    rcases List.mem_cons.mp hl with hl | hl
    · subst hl
      rw [getTopLine_length]
    · rcases List.mem_append.mp hl with hl | hl
      · obtain ⟨i, _, rfl⟩ := List.mem_map.mp hl
        rw [sliceRow_length st _ _ i (sliceWidth_bound _)]
        simp [List.length_map]
      · simp only [List.mem_singleton] at hl
        subst hl
        rw [getBottomLine_length]
  · intro l hl
    simp only [hmLines] at hl
    rcases List.mem_cons.mp hl with hl | hl
    · subst hl
      exact hmTopLine_length st _ _
    · rcases List.mem_append.mp hl with hl | hl
      · rcases hmMiddleLines_mem st _ _ _ l hl with ⟨e, he, hle⟩ | hle
        · obtain ⟨j, _, rfl⟩ := List.mem_map.mp hle
          exact hmRow_length st _ _ e.1 e.2 j (hmEntries_bounded m kh vh e he).1
            (hmEntries_bounded m kh vh e he).2
        · subst hle
          exact hmDividerRow_length st _ _
      · simp only [List.mem_singleton] at hl
        subst hl
        exact hmBottomLine_length st _ _

/-- C8: rendering the same input with two border styles produces line lists
of the same length whose corresponding lines are characterwise related by
`glyphRel`: at every position the characters are either identical (content
positions) or the corresponding glyph slots of the two styles (border
positions); in particular all widths, heights and line lengths coincide. -/
theorem style_substitution (st st' : SimpleBorderStyle) (entries : List Str)
    (m : List (Str × Str)) (kh vh : Str) :
    List.Forall₂ (List.Forall₂ (glyphRel st st'))
      (sliceLines st entries) (sliceLines st' entries) ∧
    List.Forall₂ (List.Forall₂ (glyphRel st st'))
      (hmLines st m kh vh) (hmLines st' m kh vh) :=
  ⟨forall2_glyph_sliceLines st st' entries, forall2_glyph_hmLines st st' m kh vh⟩

/-- C9: every formatting operation is total: for every border style and
every input — including empty sequences, empty mappings, empty headers and
empty cell text — each operation is a total function whose result is a
non-empty string. -/
theorem formatters_total (st : SimpleBorderStyle) (entries : List Str)
    (m : List (Str × Str)) (kh vh v d : Str) :
    formatSlice st entries ≠ [] ∧ formatIter st entries ≠ [] ∧
    formatDisplay st v ≠ [] ∧ formatDebug st d ≠ [] ∧
    formatHashMapHeaders st m kh vh ≠ [] ∧ formatHashMap st m ≠ [] := by
  have hs : ∀ es : List Str, formatSlice st es ≠ [] := by
    intro es
    show (getTopLine st es.length (sliceWidth (es.map rustLines)) ++ ['\n']) ++
      sliceMiddle st (es.map rustLines) (sliceWidth (es.map rustLines))
        (sliceHeight (es.map rustLines)) ++
      getBottomLine st es.length (sliceWidth (es.map rustLines)) ≠ []
    simp [getTopLine]
  have hh : ∀ (mm : List (Str × Str)) (a b : Str), formatHashMapHeaders st mm a b ≠ [] := by
    intro mm a b
    show (hmTopLine st (hmKeyWidth mm a) (hmValWidth mm b) ++ ['\n']) ++
      hmMiddle st (hmKeyWidth mm a) (hmValWidth mm b) (hmEntries mm a b) ++
      hmBottomLine st (hmKeyWidth mm a) (hmValWidth mm b) ≠ []
    simp [hmTopLine]
  exact ⟨hs entries, hs entries, hs [v], hs [d], hh m kh vh,
    hh m ("Key".toList) ("Value".toList)⟩

/-- C10, counterexample: the display text `"\n"` ends with a single
trailing line feed, yet its rendering differs from the rendering of the
empty text: the former has one blank content row, the latter none. -/
theorem trailing_newline_changes_output :
    formatDisplay THIN ['\n'] ≠ formatDisplay THIN [] ∧
    formatSlice THIN [['\n']] ≠ formatSlice THIN [[]] := by
  decide

/-- C10, amended: for every style and every NON-EMPTY display text ending
in neither a line feed nor a carriage return, appending one trailing line
feed leaves `format_display` (and `format_slice` on the singleton) exactly
unchanged: the trailing line feed adds no blank physical line. -/
theorem trailing_newline_invariance (st : SimpleBorderStyle) (t : Str) (hne : t ≠ [])
    (hnl : t.getLast? ≠ some '\n') (hcr : t.getLast? ≠ some '\r') :
    formatDisplay st (t ++ ['\n']) = formatDisplay st t ∧
    formatSlice st [t ++ ['\n']] = formatSlice st [t] := by
  have h := rustLines_append_nl t hne hnl hcr
  constructor
  · show formatSlice st [t ++ ['\n']] = formatSlice st [t]
    simp [formatSlice, h]
  · simp [formatSlice, h]

/-- C10 witness: the amended invariance evaluated with the thin style at
the text `"a"`. -/
theorem trailing_newline_invariance_w :
    (['a'] : Str) ≠ [] ∧ (['a'] : Str).getLast? ≠ some '\n' ∧
    (['a'] : Str).getLast? ≠ some '\r' ∧
    formatDisplay THIN (['a'] ++ ['\n']) = formatDisplay THIN ['a'] ∧
    formatSlice THIN [['a'] ++ ['\n']] = formatSlice THIN [['a']] := by
  have h := trailing_newline_invariance THIN ['a'] (by decide) (by decide) (by decide)
  exact ⟨by decide, by decide, by decide, h.1, h.2⟩
